import Mathlib

/-!
Verification of the meeting-scheduler core (`src/main.py` and the identical
core of `src/main(webapp).py`): the time-range parser `parse_time_slot`,
the interval intersector `_intersect_all_slots`, the search
`find_best_meeting_time`, the index builder `parse_availability` and the
formatter `format_time`, shallowly embedded over `List Char` strings,
`Int` hours and `ℚ` durations.
-/

namespace Scheduler

/-- Strings are modelled as lists of unicode scalar values, matching
Python `str` indexing. -/
abbrev Str := List Char

/-- An availability interval `(start_hour, end_hour)` as produced by the
parser: a pair of (possibly degenerate) integer hours. -/
abbrev Interval := Int × Int

/-- The whitespace characters recognised by Python `str.strip` and by the
regex class `\s` on the ASCII range. -/
def isPySpace (c : Char) : Bool :=
  c = ' ' || c = '\t' || c = '\n' || c = '\r' || c = '\x0b' || c = '\x0c'

/-- Python `str.strip()`: drop leading and trailing whitespace. -/
def pyStrip (s : Str) : Str :=
  ((s.dropWhile isPySpace).reverse.dropWhile isPySpace).reverse

/-- Python `str.upper()` (ASCII range, which covers every character the
parser treats specially). -/
def pyUpper (s : Str) : Str := s.map Char.toUpper

/-- Python `str.lower()` (ASCII range). -/
def pyLower (s : Str) : Str := s.map Char.toLower

/-- Python substring containment `pat in text`. -/
def containsSub (pat : Str) : Str → Bool
  | [] => pat.isEmpty
  | c :: rest => pat.isPrefixOf (c :: rest) || containsSub pat rest

/-- The absence keywords of `parse_time_slot` (`unavailable_keywords` in
the source). -/
def unavailable_keywords : List Str :=
  ["NA".toList, "N/A".toList, "ON LEAVE".toList, "LEAVE".toList,
   "UNAVAILABLE".toList, "OFF".toList]

/-- Model of the re.split call on the character class of comma and
semicolon: split at every such character, keeping empty pieces. -/
def splitParts : Str → Str
    → List Str
  | [], acc => [acc.reverse]
  | c :: rest, acc =>
    if c = ',' || c = ';' then acc.reverse :: splitParts rest []
    else splitParts rest (c :: acc)

/-- An AM/PM meridian marker. -/
inductive Period where
  | AM : Period
  | PM : Period
deriving DecidableEq, Repr

/-- The captured groups of one match of the regex
`(\d+)\s*(AM|PM)?\s*[-–]\s*(\d+)\s*(AM|PM)`. -/
structure TimeMatch where
  startVal : Nat
  startPeriod : Option Period
  endVal : Nat
  endPeriod : Period
deriving DecidableEq, Repr

/-- Numeric value of a digit string (`int` of a regex `\d+` group). -/
def digitsToNat (ds : Str) : Nat :=
  ds.foldl (fun n c => 10 * n + (c.toNat - 48)) 0

/-- Match the alternation `AM|PM` at the head of the text. -/
def matchPeriod : Str → Option (Period × Str)
  | 'A' :: 'M' :: rest => some (Period.AM, rest)
  | 'P' :: 'M' :: rest => some (Period.PM, rest)
  | _ => none

/-- Match the regex `(\d+)\s*(AM|PM)?\s*[-–]\s*(\d+)\s*(AM|PM)` anchored
at the head of the text.  The regex is deterministic here: each `\d+` and
`\s*` is safely greedy (no following atom can consume a digit or a space)
and `AM`/`PM` are disjoint, so no backtracking is modelled. -/
def matchHere (s : Str) : Option TimeMatch :=
  let d1 := s.takeWhile Char.isDigit
  let r1 := s.dropWhile Char.isDigit
  if d1.isEmpty then none else
  let r2 := r1.dropWhile isPySpace
  let sp : Option Period × Str :=
    match matchPeriod r2 with
    | some (p, r) => (some p, r)
    | none => (none, r2)
  let r4 := sp.2.dropWhile isPySpace
  match r4 with
  | [] => none
  | c :: r5 =>
    if c = '-' || c = '–' then
      let r6 := r5.dropWhile isPySpace
      let d2 := r6.takeWhile Char.isDigit
      let r7 := r6.dropWhile Char.isDigit
      if d2.isEmpty then none else
      let r8 := r7.dropWhile isPySpace
      match matchPeriod r8 with
      | some (p2, _) => some ⟨digitsToNat d1, sp.1, digitsToNat d2, p2⟩
      | none => none
    else none

/-- Model of re.search for the time-range pattern: try each start
position left to right and return the first (leftmost) match. -/
def searchTime : Str → Option TimeMatch
  | [] => none
  | c :: rest =>
    match matchHere (c :: rest) with
    | some m => some m
    | none => searchTime rest

/-- The 24-hour conversion of `parse_time_slot` applied to one match:
the end hour is converted by its own period, an explicit start period is
applied independently, and an absent start period is inferred from the
end period (`PM` end with start value `< 12` adds 12; `AM` end leaves the
start unchanged). -/
def convertMatch (m : TimeMatch) : Interval :=
  let endT : Int :=
    if m.endPeriod = Period.PM ∧ m.endVal ≠ 12 then (m.endVal : Int) + 12
    else if m.endPeriod = Period.AM ∧ m.endVal = 12 then 0
    else (m.endVal : Int)
  let startT : Int :=
    match m.startPeriod with
    | some p =>
      if p = Period.PM ∧ m.startVal ≠ 12 then (m.startVal : Int) + 12
      else if p = Period.AM ∧ m.startVal = 12 then 0
      else (m.startVal : Int)
    | none =>
      if m.endPeriod = Period.PM ∧ m.startVal < 12 then (m.startVal : Int) + 12
      else (m.startVal : Int)
  (startT, endT)

/-- Embedding of MeetingScheduler.parse_time_slot: normalise the cell,
return `[]` on any absence keyword, otherwise split on comma or
semicolon and convert the first regex match of each non-empty
sub-part. -/
def parse_time_slot (time_str : Str) : List Interval :=
  let t := pyUpper (pyStrip time_str)
  if unavailable_keywords.any (fun k => containsSub k t) then []
  else
    (splitParts t []).flatMap (fun part0 =>
      let part := pyStrip part0
      if part.isEmpty then []
      else
        match searchTime part with
        | some m => [convertMatch m]
        | none => [])

/-- One pass of the intersection loop of `_intersect_all_slots`: the
pairwise overlap `(max(start1,start2), min(end1,end2))` of every
accumulator interval against every interval of the next participant,
kept only when `overlap_end > overlap_start`, in loop order. -/
def pairOverlaps (acc slots : List Interval) : List Interval :=
  acc.flatMap (fun s1 => slots.filterMap (fun s2 =>
    let os := max s1.1 s2.1
    let oe := min s1.2 s2.2
    if os < oe then some (os, oe) else none))

/-- The fold of `_intersect_all_slots` over the remaining participants,
with the short-circuit break of the source when the accumulator empties. -/
def intersectFold (init : List Interval) : List (List Interval) → List Interval
  | [] => init
  | l :: ls =>
    let ni := pairOverlaps init l
    if ni.isEmpty then ni else intersectFold ni ls

/-- Embedding of MeetingScheduler._intersect_all_slots: fold pairwise
overlaps over all interval lists, then keep the intervals whose length
`end - start` is at least `duration_hours`. -/
def intersect_all_slots (all_member_slots : List (List Interval))
    (duration_hours : ℚ) : List Interval :=
  match all_member_slots with
  | [] => []
  | first :: rest =>
    (intersectFold first rest).filter
      (fun s => duration_hours ≤ ((s.2 - s.1 : Int) : ℚ))

/-- Embedding of MeetingScheduler._find_common_slots: intersect the
interval lists of the given members (dict values, in dict order). -/
def find_common_slots (members_available : List (Str × List Interval))
    (duration_hours : ℚ) : List Interval :=
  if members_available.isEmpty then []
  else intersect_all_slots (members_available.map Prod.snd) duration_hours

/-- Day schedule of one participant: date label → intervals, in column
(insertion) order. -/
abbrev DaySchedule := List (Str × List Interval)

/-- The parsed schedules dict: member name → day schedule, in insertion
order. -/
abbrev Schedules := List (Str × DaySchedule)

/-- Python dict lookup on the association-list model. -/
def alookup (k : Str) : List (Str × α) → Option α
  | [] => none
  | kv :: rest => if kv.1 = k then some kv.2 else alookup k rest

/-- A perfect-slot candidate of `find_best_meeting_time`. -/
structure SlotCandidate where
  date : Str
  start_time : Int
  end_time : Int
  members_available : List Str
  members_unavailable : List Str
deriving DecidableEq, Repr

/-- An alternative-slot candidate of `find_best_meeting_time`, carrying
its coverage fraction. -/
structure AltCandidate where
  date : Str
  start_time : Int
  end_time : Int
  members_available : List Str
  members_unavailable : List Str
  coverage : ℚ
deriving DecidableEq, Repr

/-- The result dict of `find_best_meeting_time`. -/
structure FindResult where
  perfect_slots : List SlotCandidate
  best_alternative_slots : List AltCandidate
deriving DecidableEq, Repr

/-- Stable insertion into a list kept sorted by the keep-before test `r`:
`x` goes after every prefix element `y` with `r y x`. -/
def insertBy (r : α → α → Bool) (x : α) : List α → List α
  | [] => [x]
  | y :: ys => if r y x then y :: insertBy r x ys else x :: y :: ys

/-- Stable sort by the keep-before test `r` (insertion sort), the unique
stable sort and hence the model of Python `list.sort`. -/
def sortBy (r : α → α → Bool) (l : List α) : List α :=
  l.foldl (fun acc x => insertBy r x acc) []

/-- Python `<` on strings: lexicographic comparison of scalar values. -/
def strLt : Str → Str → Bool
  | [], [] => false
  | [], _ :: _ => true
  | _ :: _, [] => false
  | a :: as, b :: bs => if a = b then strLt as bs else decide (a < b)

/-- Keep-before test for ascending string sort (`sorted` on date
labels). -/
def strLe (a b : Str) : Bool := ! strLt b a

/-- Keep-before test for the descending stable coverage sort
(`sort(key=coverage, reverse=True)`). -/
def covGe (a b : AltCandidate) : Bool := decide (b.coverage ≤ a.coverage)

/-- The `members_available` dict built for one date: the participants
whose interval list for this date exists and is non-empty, in dict
order. -/
def membersAvailable (schedules : Schedules) (date : Str) :
    List (Str × List Interval) :=
  schedules.filterMap (fun ms =>
    match alookup date ms.2 with
    | some slots => if slots.isEmpty then none else some (ms.1, slots)
    | none => none)

/-- The `unavailable_members` list built for one date: the dict keys not
present among the available members, in dict order. -/
def unavailList (schedules : Schedules) (date : Str) : List Str :=
  (schedules.map Prod.fst).filter
    (fun m => ! ((membersAvailable schedules date).map Prod.fst).contains m)

/-- The loop body of `find_best_meeting_time` for one date: the
perfect-slot candidates (emitted when every member is available) and the
alternative-slot candidates (emitted when at least two are). -/
def processDate (schedules : Schedules) (duration : ℚ) (date : Str) :
    List SlotCandidate × List AltCandidate :=
  let ma := membersAvailable schedules date
  let total := schedules.length
  let ac := ma.length
  if ac = 0 then ([], [])
  else
    let perfects :=
      if ac = total then
        (find_common_slots ma duration).map (fun s =>
          ⟨date, s.1, s.2, ma.map Prod.fst, []⟩)
      else []
    let alts :=
      if 2 ≤ ac then
        (find_common_slots ma duration).map (fun s =>
          ⟨date, s.1, s.2, ma.map Prod.fst, unavailList schedules date,
           (ac : ℚ) / (total : ℚ)⟩)
      else []
    (perfects, alts)

/-- The sorted union of all date labels known to the index
(`sorted(all_dates)`). -/
def allDates (schedules : Schedules) : List Str :=
  sortBy strLe ((schedules.flatMap (fun m => m.2.map Prod.fst)).dedup)

/-- The perfect-slot candidates accumulated over all dates, in per-date
iteration order. -/
def perfectStream (schedules : Schedules) (duration : ℚ) :
    List SlotCandidate :=
  ((allDates schedules).map
    (fun date => (processDate schedules duration date).1)).flatten

/-- The alternative-slot candidates accumulated over all dates, in
per-date iteration (discovery) order, before sorting and truncation. -/
def altStream (schedules : Schedules) (duration : ℚ) :
    List AltCandidate :=
  ((allDates schedules).map
    (fun date => (processDate schedules duration date).2)).flatten

/-- Embedding of MeetingScheduler.find_best_meeting_time: iterate the
sorted dates, collect perfect and alternative candidates, stably sort the
alternatives by coverage descending and keep the top 10. -/
def find_best_meeting_time (schedules : Schedules) (duration : ℚ) :
    FindResult :=
  if schedules.isEmpty then ⟨[], []⟩
  else
    ⟨perfectStream schedules duration,
     (sortBy covGe (altStream schedules duration)).take 10⟩

/-- The rectangular input table: first column holds member names, the
other columns are date labels; every cell already stringified by the
ingestion layer. -/
structure Table where
  date_cols : List Str
  rows : List (Str × List Str)
deriving DecidableEq, Repr

/-- The dropped-row test of `parse_availability`:
the trimmed name is dropped when it is empty or its lowercase form is
the word nan or the word none. -/
def isNullName (s : Str) : Bool :=
  s.isEmpty || pyLower s = "nan".toList || pyLower s = "none".toList

/-- Python dict assignment `d[k] = v` on the association-list model:
update in place when the key exists, else append. -/
def dictInsert (l : List (Str × α)) (k : Str) (v : α) : List (Str × α) :=
  if (l.map Prod.fst).contains k then
    l.map (fun kv => if kv.1 = k then (k, v) else kv)
  else l ++ [(k, v)]

/-- Embedding of MeetingScheduler.parse_availability: build the
schedules dict from the table, dropping null-named rows and parsing
every date cell. -/
def parse_availability (t : Table) : Schedules :=
  t.rows.foldl (fun acc row =>
    let name := pyStrip row.1
    if isNullName name then acc
    else
      dictInsert acc name
        ((t.date_cols.zip row.2).map (fun dc => (dc.1, parse_time_slot dc.2))))
    []

/-- Embedding of MeetingScheduler.format_time: 24-hour to 12-hour clock
with AM and PM. -/
def format_time (hour : Int) : String :=
  if hour = 0 then "12AM"
  else if hour < 12 then toString hour ++ "AM"
  else if hour = 12 then "12PM"
  else toString (hour - 12) ++ "PM"

/-- The mutable state of a `MeetingScheduler` instance:
`availability_data` and `parsed_schedules`. -/
structure SchedulerState where
  availability_data : Option Table
  parsed_schedules : Schedules
deriving DecidableEq

/-- Embedding of the MeetingScheduler constructor. -/
def initState : SchedulerState := ⟨none, []⟩

/-- A successful `load_availability_file`: store the ingested table. -/
def loadData (t : Table) (s : SchedulerState) : SchedulerState :=
  ⟨some t, s.parsed_schedules⟩

/-- The stateful `parse_availability` method: parse the stored table,
cache the schedules on the instance and also return them. -/
def parseStep (s : SchedulerState) : SchedulerState × Schedules :=
  match s.availability_data with
  | none => (s, [])
  | some t =>
    let sch := parse_availability t
    (⟨some t, sch⟩, sch)

/-- The stateful `find_best_meeting_time` method: search the cached
schedules. -/
def findStep (s : SchedulerState) (duration : ℚ) : FindResult :=
  find_best_meeting_time s.parsed_schedules duration

/-- Spec-side intersection fold (§4.3 of the spec): treat the first list
as the accumulator and fold the pairwise-overlap step over the remaining
participants, with no explicit short-circuit. -/
def specFoldOverlaps : List (List Interval) → List Interval
  | [] => []
  | first :: rest => rest.foldl pairOverlaps first

/-- Spec-side intersector (§4.3 of the spec): the overlap fold followed
by the `end - start >= min_duration` filter, in the order produced. -/
def intersect_all_slots_spec (ls : List (List Interval)) (d : ℚ) :
    List Interval :=
  (specFoldOverlaps ls).filter (fun s => d ≤ ((s.2 - s.1 : Int) : ℚ))

/-- The expected 12-hour rendering of each hour 0–23, transcribed from
the round-trip table of the spec. -/
def timeTable : List String :=
  ["12AM", "1AM", "2AM", "3AM", "4AM", "5AM", "6AM", "7AM", "8AM", "9AM",
   "10AM", "11AM", "12PM", "1PM", "2PM", "3PM", "4PM", "5PM", "6PM", "7PM",
   "8PM", "9PM", "10PM", "11PM"]

/-! ### Lemmas about the interval intersector -/

theorem mem_pairOverlaps {s : Interval} {acc l : List Interval} :
    s ∈ pairOverlaps acc l ↔ ∃ p ∈ acc, ∃ q ∈ l,
      max p.1 q.1 < min p.2 q.2 ∧ s = (max p.1 q.1, min p.2 q.2) := by
  simp only [pairOverlaps, List.mem_flatMap, List.mem_filterMap]
  constructor
  · rintro ⟨p, hp, q, hq, hif⟩
    by_cases hlt : max p.1 q.1 < min p.2 q.2
    · simp only [hlt, if_pos] at hif
      exact ⟨p, hp, q, hq, hlt, (Option.some_inj.mp hif).symm⟩
    · simp [hlt] at hif
  · rintro ⟨p, hp, q, hq, hlt, hs⟩
    exact ⟨p, hp, q, hq, by simp [hlt, hs]⟩

theorem pairOverlaps_nil (l : List Interval) : pairOverlaps [] l = [] := rfl

theorem foldl_pairOverlaps_nil (ls : List (List Interval)) :
    ls.foldl pairOverlaps [] = [] := by
  induction ls with
  | nil => rfl
  | cons l ls ih => simpa [pairOverlaps_nil] using ih

theorem intersectFold_eq_foldl (init : List Interval)
    (ls : List (List Interval)) :
    intersectFold init ls = ls.foldl pairOverlaps init := by
  induction ls generalizing init with
  | nil => rfl
  | cons l ls ih =>
    simp only [intersectFold, List.foldl_cons]
    by_cases h : (pairOverlaps init l).isEmpty
    · rw [if_pos h, List.isEmpty_iff.mp h, foldl_pairOverlaps_nil]
    · rw [if_neg h, ih]

theorem mem_intersectFold {s : Interval} {init : List Interval}
    {ls : List (List Interval)} (hs : s ∈ intersectFold init ls) :
    (∃ t ∈ init, t.1 ≤ s.1 ∧ s.2 ≤ t.2)
    ∧ ∀ l ∈ ls, ∃ t ∈ l, t.1 ≤ s.1 ∧ s.2 ≤ t.2 := by
  induction ls generalizing init with
  | nil =>
    exact ⟨⟨s, hs, le_refl _, le_refl _⟩, by simp⟩
  | cons l ls ih =>
    simp only [intersectFold] at hs
    by_cases h : (pairOverlaps init l).isEmpty
    · rw [if_pos h, List.isEmpty_iff.mp h] at hs
      exact absurd hs (List.not_mem_nil s)
    · rw [if_neg h] at hs
      obtain ⟨⟨t, ht, ht1, ht2⟩, hrest⟩ := ih hs
      obtain ⟨p, hp, q, hq, _, hteq⟩ := mem_pairOverlaps.mp ht
      subst hteq
      refine ⟨⟨p, hp, ?_, ?_⟩, ?_⟩
      · exact le_trans (le_max_left _ _) ht1
      · exact le_trans ht2 (min_le_left _ _)
      · intro l2 hl2
        rcases List.mem_cons.mp hl2 with h2 | h2
        · subst h2
          exact ⟨q, hq, le_trans (le_max_right _ _) ht1,
            le_trans ht2 (min_le_right _ _)⟩
        · exact hrest l2 h2

/-- C1: on every non-empty sequence of per-participant interval lists
and every `min_duration`, `_intersect_all_slots` returns exactly the
fold of pairwise overlaps as worded in the spec followed by the
`end - start >= min_duration` filter, in the order produced; every
returned interval is contained in some interval of every list; and when `min_duration <= 0` every positive-length interval of the
final accumulator passes the filter. -/
theorem claim_C1 (ls : List (List Interval)) (d : ℚ) (hne : ls ≠ []) :
    intersect_all_slots ls d = intersect_all_slots_spec ls d
    ∧ (∀ s ∈ intersect_all_slots ls d, ∀ l ∈ ls,
        ∃ t ∈ l, t.1 ≤ s.1 ∧ s.2 ≤ t.2)
    ∧ (d ≤ 0 → ∀ s ∈ specFoldOverlaps ls, s.1 < s.2 →
        s ∈ intersect_all_slots ls d) := by
  obtain ⟨first, rest, rfl⟩ : ∃ f r, ls = f :: r := by
    cases ls with
    | nil => exact absurd rfl hne
    | cons f r => exact ⟨f, r, rfl⟩
  refine ⟨?_, ?_, ?_⟩
  · simp only [intersect_all_slots, intersect_all_slots_spec, specFoldOverlaps,
      intersectFold_eq_foldl]
  · intro s hs l hl
    simp only [intersect_all_slots, List.mem_filter] at hs
    obtain ⟨⟨ht, hrest⟩, -⟩ := And.intro (mem_intersectFold hs.1) hs.2
    rcases List.mem_cons.mp hl with h | h
    · subst h; exact ht
    · exact hrest l h
  · intro hd s hs hpos
    simp only [intersect_all_slots, List.mem_filter]
    simp only [specFoldOverlaps] at hs
    refine ⟨by rwa [intersectFold_eq_foldl], ?_⟩
    have h1 : (0 : ℚ) < ((s.2 - s.1 : Int) : ℚ) := by
      have : (0 : Int) < s.2 - s.1 := by omega
      exact_mod_cast this
    exact decide_eq_true (le_of_lt (lt_of_le_of_lt hd h1))

/-- Witness for C1 at the concrete input `[[(1,3)], [(2,4)]]` with
duration 1. -/
theorem claim_C1_witness :
    ([[((1 : Int), (3 : Int))], [((2 : Int), (4 : Int))]]
        ≠ ([] : List (List Interval)))
    ∧ (intersect_all_slots [[((1 : Int), (3 : Int))], [((2 : Int), (4 : Int))]] 1
        = intersect_all_slots_spec
            [[((1 : Int), (3 : Int))], [((2 : Int), (4 : Int))]] 1
      ∧ (∀ s ∈ intersect_all_slots
            [[((1 : Int), (3 : Int))], [((2 : Int), (4 : Int))]] 1,
          ∀ l ∈ [[((1 : Int), (3 : Int))], [((2 : Int), (4 : Int))]],
            ∃ t ∈ l, t.1 ≤ s.1 ∧ s.2 ≤ t.2)
      ∧ ((1 : ℚ) ≤ 0 → ∀ s ∈ specFoldOverlaps
            [[((1 : Int), (3 : Int))], [((2 : Int), (4 : Int))]], s.1 < s.2 →
          s ∈ intersect_all_slots
            [[((1 : Int), (3 : Int))], [((2 : Int), (4 : Int))]] 1)) :=
  ⟨by decide, claim_C1 [[(1, 3)], [(2, 4)]] 1 (by decide)⟩

/-- C2: the 24-hour conversion converts the end hour by its own period
(PM adds 12 unless the value is 12, AM maps 12 to 0), converts an
explicit start period the same way independently, and infers an absent
start period from the end period (PM end with start value < 12 adds 12,
AM end leaves the start unchanged); concretely `"9AM-12PM"` yields
`[(9,12)]`, `"1-3PM"` yields `[(13,15)]` and `"9-12PM"` yields the
unfiltered degenerate `[(21,12)]`. -/
theorem claim_C2 :
    (∀ m : TimeMatch, m.endPeriod = Period.PM → m.endVal ≠ 12 →
        (convertMatch m).2 = (m.endVal : Int) + 12)
    ∧ (∀ m : TimeMatch, m.endPeriod = Period.PM → m.endVal = 12 →
        (convertMatch m).2 = 12)
    ∧ (∀ m : TimeMatch, m.endPeriod = Period.AM → m.endVal = 12 →
        (convertMatch m).2 = 0)
    ∧ (∀ m : TimeMatch, m.endPeriod = Period.AM → m.endVal ≠ 12 →
        (convertMatch m).2 = (m.endVal : Int))
    ∧ (∀ m : TimeMatch, m.startPeriod = some Period.PM → m.startVal ≠ 12 →
        (convertMatch m).1 = (m.startVal : Int) + 12)
    ∧ (∀ m : TimeMatch, m.startPeriod = some Period.PM → m.startVal = 12 →
        (convertMatch m).1 = 12)
    ∧ (∀ m : TimeMatch, m.startPeriod = some Period.AM → m.startVal = 12 →
        (convertMatch m).1 = 0)
    ∧ (∀ m : TimeMatch, m.startPeriod = some Period.AM → m.startVal ≠ 12 →
        (convertMatch m).1 = (m.startVal : Int))
    ∧ (∀ m : TimeMatch, m.startPeriod = none → m.endPeriod = Period.PM →
        m.startVal < 12 → (convertMatch m).1 = (m.startVal : Int) + 12)
    ∧ (∀ m : TimeMatch, m.startPeriod = none → m.endPeriod = Period.PM →
        ¬ m.startVal < 12 → (convertMatch m).1 = (m.startVal : Int))
    ∧ (∀ m : TimeMatch, m.startPeriod = none → m.endPeriod = Period.AM →
        (convertMatch m).1 = (m.startVal : Int))
    ∧ parse_time_slot "9AM-12PM".toList = [((9 : Int), (12 : Int))]
    ∧ parse_time_slot "1-3PM".toList = [((13 : Int), (15 : Int))]
    ∧ parse_time_slot "9-12PM".toList = [((21 : Int), (12 : Int))] := by
  refine ⟨?_, ?_, ?_, ?_, ?_, ?_, ?_, ?_, ?_, ?_, ?_, by decide, by decide,
    by decide⟩ <;>
    · intro m h1 h2
      simp [convertMatch, h1, h2]

/-- Witness for C2: the absent-start-period PM inference applied to the
match of `"9-12PM"`. -/
theorem claim_C2_witness :
    ((⟨9, none, 12, Period.PM⟩ : TimeMatch).startPeriod = none)
    ∧ ((⟨9, none, 12, Period.PM⟩ : TimeMatch).endPeriod = Period.PM)
    ∧ ((⟨9, none, 12, Period.PM⟩ : TimeMatch).startVal < 12)
    ∧ (convertMatch ⟨9, none, 12, Period.PM⟩).1
        = ((⟨9, none, 12, Period.PM⟩ : TimeMatch).startVal : Int) + 12 :=
  ⟨rfl, rfl, by decide,
   claim_C2.2.2.2.2.2.2.2.2.1 ⟨9, none, 12, Period.PM⟩ rfl rfl (by decide)⟩

/-- C6 fails on the code: `"9-12PM"` parses to the single interval
`(21, 12)`, whose end is not greater than its start. -/
theorem claim_C6_counterexample :
    parse_time_slot "9-12PM".toList = [((21 : Int), (12 : Int))]
    ∧ ¬ ((21 : Int) < 12) := by
  exact ⟨by decide, by decide⟩

/-- C6 amended: when both matched numeric values lie in `[1, 12]`, both
converted hours lie in `[0, 24)`; the `end > start` part of the claimed
invariant does not hold (see the counterexample). -/
theorem claim_C6 (m : TimeMatch) (h1 : 1 ≤ m.startVal) (h2 : m.startVal ≤ 12)
    (h3 : 1 ≤ m.endVal) (h4 : m.endVal ≤ 12) :
    0 ≤ (convertMatch m).1 ∧ (convertMatch m).1 < 24
    ∧ 0 ≤ (convertMatch m).2 ∧ (convertMatch m).2 < 24 := by
  obtain ⟨sv, sp, ev, ep⟩ := m
  simp only [TimeMatch.startVal, TimeMatch.endVal] at h1 h2 h3 h4
  rcases sp with - | p
  · cases ep <;> simp only [convertMatch] <;> split_ifs <;>
      refine ⟨?_, ?_, ?_⟩ <;> simp_all <;> omega
  · cases p <;> cases ep <;> simp only [convertMatch] <;> split_ifs <;>
      refine ⟨?_, ?_, ?_⟩ <;> simp_all <;> omega

/-- Witness for C6 at the match of `"9-12PM"` (values 9 and 12). -/
theorem claim_C6_witness :
    (1 ≤ (9 : Nat)) ∧ ((9 : Nat) ≤ 12) ∧ (1 ≤ (12 : Nat)) ∧ ((12 : Nat) ≤ 12)
    ∧ (0 ≤ (convertMatch ⟨9, none, 12, Period.PM⟩).1
        ∧ (convertMatch ⟨9, none, 12, Period.PM⟩).1 < 24
        ∧ 0 ≤ (convertMatch ⟨9, none, 12, Period.PM⟩).2
        ∧ (convertMatch ⟨9, none, 12, Period.PM⟩).2 < 24) :=
  ⟨by decide, by decide, by decide, by decide,
   claim_C6 ⟨9, none, 12, Period.PM⟩ (by decide) (by decide) (by decide)
     (by decide)⟩

/-- C7: any absence keyword in the normalised cell makes
`parse_time_slot` return the empty sequence, even when a parseable time
range is also present; concretely `"NA"`, `"n/a"`, `"On Leave"` and
`"OFF"` all parse to `[]`. -/
theorem claim_C7 :
    (∀ s : Str,
      unavailable_keywords.any (fun k => containsSub k (pyUpper (pyStrip s)))
        = true →
      parse_time_slot s = [])
    ∧ parse_time_slot "NA".toList = []
    ∧ parse_time_slot "n/a".toList = []
    ∧ parse_time_slot "On Leave".toList = []
    ∧ parse_time_slot "OFF".toList = []
    ∧ parse_time_slot "NA 1-2PM".toList = [] := by
  refine ⟨?_, by decide, by decide, by decide, by decide, by decide⟩
  intro s h
  simp [parse_time_slot, h]

/-- Witness for C7 on the concrete cell `"off 1-2pm"`, which contains
both a keyword and a parseable range. -/
theorem claim_C7_witness :
    (unavailable_keywords.any
        (fun k => containsSub k (pyUpper (pyStrip "off 1-2pm".toList)))
      = true)
    ∧ parse_time_slot "off 1-2pm".toList = [] :=
  ⟨by decide, claim_C7.1 "off 1-2pm".toList (by decide)⟩

/-- C8: on every hour in `[0, 24)`, `format_time` returns exactly the
12-hour rendering tabulated in the spec (12AM for 0, hAM for
1–11, `"12PM"` for 12, `"<h-12>PM"` for 13–23). -/
theorem claim_C8 : ∀ h : Nat, h < 24 →
    format_time (h : Int) = timeTable.getD h "" := by decide

/-- Witness for C8 at hour 13. -/
theorem claim_C8_witness :
    (13 : Nat) < 24 ∧ format_time ((13 : Nat) : Int) = timeTable.getD 13 "" :=
  ⟨by decide, claim_C8 13 (by decide)⟩

/-! ### Lemmas about the stable sort -/

theorem mem_insertBy {r : α → α → Bool} {x z : α} {l : List α} :
    z ∈ insertBy r x l ↔ z = x ∨ z ∈ l := by
  induction l with
  | nil => simp [insertBy]
  | cons y ys ih =>
    simp only [insertBy]
    by_cases h : r y x
    · rw [if_pos h, List.mem_cons, ih, List.mem_cons]
      tauto
    · rw [if_neg h, List.mem_cons]

theorem insertBy_perm (r : α → α → Bool) (x : α) (l : List α) :
    (insertBy r x l).Perm (x :: l) := by
  induction l with
  | nil => exact List.Perm.refl _
  | cons y ys ih =>
    simp only [insertBy]
    by_cases h : r y x
    · rw [if_pos h]
      exact (ih.cons y).trans (List.Perm.swap x y ys)
    · rw [if_neg h]

theorem sortBy_perm (r : α → α → Bool) (l : List α) :
    (sortBy r l).Perm l := by
  have key : ∀ (l acc : List α),
      (l.foldl (fun acc x => insertBy r x acc) acc).Perm (acc ++ l) := by
    intro l
    induction l with
    | nil => intro acc; simp
    | cons x xs ih =>
      intro acc
      have h2 := ih (insertBy r x acc)
      have h3 : (insertBy r x acc ++ xs).Perm ((x :: acc) ++ xs) :=
        (insertBy_perm r x acc).append_right xs
      have h5 : (x :: (acc ++ xs)).Perm (acc ++ x :: xs) :=
        List.perm_middle.symm
      exact (h2.trans h3).trans h5
  simpa using key l []

theorem length_sortBy (r : α → α → Bool) (l : List α) :
    (sortBy r l).length = l.length :=
  (sortBy_perm r l).length_eq

theorem pairwise_insertBy {x : AltCandidate} {l : List AltCandidate}
    (hl : l.Pairwise fun a b => b.coverage ≤ a.coverage) :
    (insertBy covGe x l).Pairwise fun a b => b.coverage ≤ a.coverage := by
  induction l with
  | nil => simp [insertBy]
  | cons y ys ih =>
    rw [List.pairwise_cons] at hl
    obtain ⟨hy, hys⟩ := hl
    simp only [insertBy]
    by_cases h : covGe y x
    · rw [if_pos h, List.pairwise_cons]
      refine ⟨?_, ih hys⟩
      intro z hz
      rcases mem_insertBy.mp hz with h1 | h1
      · subst h1
        simpa [covGe] using h
      · exact hy z h1
    · rw [if_neg h, List.pairwise_cons]
      have hyx : y.coverage < x.coverage := by
        simp only [covGe, decide_eq_true_eq] at h
        exact not_le.mp h
      refine ⟨?_, List.pairwise_cons.mpr ⟨hy, hys⟩⟩
      intro z hz
      rcases List.mem_cons.mp hz with h1 | h1
      · subst h1; exact le_of_lt hyx
      · exact le_trans (hy z h1) (le_of_lt hyx)

theorem pairwise_sortBy (l : List AltCandidate) :
    (sortBy covGe l).Pairwise fun a b => b.coverage ≤ a.coverage := by
  have key : ∀ (l acc : List AltCandidate),
      acc.Pairwise (fun a b => b.coverage ≤ a.coverage) →
      (l.foldl (fun acc x => insertBy covGe x acc) acc).Pairwise
        (fun a b => b.coverage ≤ a.coverage) := by
    intro l
    induction l with
    | nil => exact fun acc h => h
    | cons x xs ih => exact fun acc h => ih _ (pairwise_insertBy h)
  exact key l [] (by simp)

theorem filter_insertBy (x : AltCandidate) (acc : List AltCandidate)
    (hacc : acc.Pairwise fun a b => b.coverage ≤ a.coverage) (c : ℚ) :
    (insertBy covGe x acc).filter (fun z => z.coverage = c)
      = acc.filter (fun z => z.coverage = c)
        ++ (if x.coverage = c then [x] else []) := by
  induction acc with
  | nil =>
    by_cases hc : x.coverage = c
    · simp [insertBy, hc]
    · simp [insertBy, hc]
  | cons y ys ih =>
    rw [List.pairwise_cons] at hacc
    obtain ⟨hy, hys⟩ := hacc
    simp only [insertBy]
    by_cases h : covGe y x
    · rw [if_pos h]
      by_cases hc : y.coverage = c
      · rw [List.filter_cons_of_pos (by simpa using hc),
            List.filter_cons_of_pos (by simpa using hc), ih hys,
            List.cons_append]
      · rw [List.filter_cons_of_neg (by simpa using hc),
            List.filter_cons_of_neg (by simpa using hc), ih hys]
    · rw [if_neg h]
      have hyx : y.coverage < x.coverage := by
        simp only [covGe, decide_eq_true_eq] at h
        exact not_le.mp h
      by_cases hc : x.coverage = c
      · have hnil : (y :: ys).filter
            (fun z : AltCandidate => z.coverage = c) = [] := by
          rw [List.filter_eq_nil_iff]
          intro z hz
          have hlt : z.coverage < c := by
            rcases List.mem_cons.mp hz with h1 | h1
            · rw [h1]; exact hc ▸ hyx
            · exact lt_of_le_of_lt (hy z h1) (hc ▸ hyx)
          simp only [decide_eq_true_eq]
          exact ne_of_lt hlt
        rw [List.filter_cons_of_pos (by simpa using hc), hnil, if_pos hc]
        simp
      · rw [List.filter_cons_of_neg (by simpa using hc), if_neg hc,
            List.append_nil]

theorem filter_sortBy (l : List AltCandidate) (c : ℚ) :
    (sortBy covGe l).filter (fun z => z.coverage = c)
      = l.filter (fun z => z.coverage = c) := by
  have key : ∀ (l acc : List AltCandidate),
      acc.Pairwise (fun a b => b.coverage ≤ a.coverage) →
      (l.foldl (fun acc x => insertBy covGe x acc) acc).filter
          (fun z => z.coverage = c)
        = acc.filter (fun z => z.coverage = c)
          ++ l.filter (fun z => z.coverage = c) := by
    intro l
    induction l with
    | nil => intro acc _; simp
    | cons x xs ih =>
      intro acc hacc
      have step := ih (insertBy covGe x acc) (pairwise_insertBy hacc)
      rw [List.foldl_cons, step, filter_insertBy x acc hacc c,
          List.append_assoc, List.filter_cons]
      by_cases hc : x.coverage = c
      · simp [hc]
      · simp [hc]
  simpa using key l [] (by simp)

/-! ### Lemmas about the per-date loop body -/

theorem alt_mem_processDate {sched : Schedules} {d : ℚ} {date : Str}
    {c : AltCandidate} (hc : c ∈ (processDate sched d date).2) :
    2 ≤ (membersAvailable sched date).length
    ∧ ∃ s ∈ find_common_slots (membersAvailable sched date) d,
        c = ⟨date, s.1, s.2, (membersAvailable sched date).map Prod.fst,
             unavailList sched date,
             ((membersAvailable sched date).length : ℚ)
               / (sched.length : ℚ)⟩ := by
  simp only [processDate] at hc
  split_ifs at hc with h0 h1 h2 h3
  · exact absurd hc (List.not_mem_nil c)
  · obtain ⟨s, hs, hsc⟩ := List.mem_map.mp hc
    exact ⟨h2, s, hs, hsc.symm⟩
  · exact absurd hc (List.not_mem_nil c)
  · obtain ⟨s, hs, hsc⟩ := List.mem_map.mp hc
    exact ⟨h3, s, hs, hsc.symm⟩
  · exact absurd hc (List.not_mem_nil c)

theorem perfect_mem_processDate {sched : Schedules} {d : ℚ} {date : Str}
    {p : SlotCandidate} (hp : p ∈ (processDate sched d date).1) :
    (membersAvailable sched date).length = sched.length
    ∧ (membersAvailable sched date).length ≠ 0
    ∧ ∃ s ∈ find_common_slots (membersAvailable sched date) d,
        p = ⟨date, s.1, s.2,
             (membersAvailable sched date).map Prod.fst, []⟩ := by
  simp only [processDate] at hp
  split_ifs at hp with h0 h1 h2 h3
  · exact absurd hp (List.not_mem_nil p)
  · obtain ⟨s, hs, hsp⟩ := List.mem_map.mp hp
    exact ⟨h1, h0, s, hs, hsp.symm⟩
  · obtain ⟨s, hs, hsp⟩ := List.mem_map.mp hp
    exact ⟨h1, h0, s, hs, hsp.symm⟩
  · exact absurd hp (List.not_mem_nil p)
  · exact absurd hp (List.not_mem_nil p)

theorem alt_processDate_intro {sched : Schedules} {d : ℚ} {date : Str}
    (s : Interval)
    (hs : s ∈ find_common_slots (membersAvailable sched date) d)
    (h2 : 2 ≤ (membersAvailable sched date).length) :
    (⟨date, s.1, s.2, (membersAvailable sched date).map Prod.fst,
      unavailList sched date,
      ((membersAvailable sched date).length : ℚ) / (sched.length : ℚ)⟩
      : AltCandidate) ∈ (processDate sched d date).2 := by
  simp only [processDate]
  rw [if_neg (by omega : ¬ (membersAvailable sched date).length = 0)]
  show _ ∈ if 2 ≤ (membersAvailable sched date).length then _ else _
  rw [if_pos h2]
  exact List.mem_map_of_mem _ hs

theorem mem_best_alt {sched : Schedules} {d : ℚ} {c : AltCandidate}
    (hc : c ∈ (find_best_meeting_time sched d).best_alternative_slots) :
    ∃ date ∈ allDates sched, c ∈ (processDate sched d date).2 := by
  have hstream : c ∈ altStream sched d := by
    by_cases h : sched = []
    · subst h
      rw [show find_best_meeting_time [] d = ⟨[], []⟩ from rfl] at hc
      exact absurd hc (List.not_mem_nil c)
    · have hb : sched.isEmpty = false := by
        cases sched with
        | nil => exact absurd rfl h
        | cons a l => rfl
      rw [show (find_best_meeting_time sched d).best_alternative_slots
            = (sortBy covGe (altStream sched d)).take 10 by
          simp [find_best_meeting_time, hb]] at hc
      exact ((sortBy_perm covGe _).mem_iff).mp (List.mem_of_mem_take hc)
  obtain ⟨l, hl, hcl⟩ := List.mem_flatten.mp hstream
  obtain ⟨date, hdate, rfl⟩ := List.mem_map.mp hl
  exact ⟨date, hdate, hcl⟩

theorem mem_perfect {sched : Schedules} {d : ℚ} {p : SlotCandidate}
    (hp : p ∈ (find_best_meeting_time sched d).perfect_slots) :
    ∃ date ∈ allDates sched, p ∈ (processDate sched d date).1 := by
  have hstream : p ∈ perfectStream sched d := by
    by_cases h : sched = []
    · subst h
      rw [show find_best_meeting_time [] d = ⟨[], []⟩ from rfl] at hp
      exact absurd hp (List.not_mem_nil p)
    · have hb : sched.isEmpty = false := by
        cases sched with
        | nil => exact absurd rfl h
        | cons a l => rfl
      rwa [show (find_best_meeting_time sched d).perfect_slots
            = perfectStream sched d by
          simp [find_best_meeting_time, hb]] at hp
  obtain ⟨l, hl, hpl⟩ := List.mem_flatten.mp hstream
  obtain ⟨date, hdate, rfl⟩ := List.mem_map.mp hl
  exact ⟨date, hdate, hpl⟩

/-- C3: `best_alternative_slots` is exactly the stable coverage-descending
sort of the discovered alternatives truncated to 10 — so it is pairwise
sorted by coverage descending, has length at most 10, the sort preserves
the date-then-discovery order of coverage ties, and `perfect_slots` is
the untouched per-date stream. -/
theorem claim_C3 (schedules : Schedules) (d : ℚ) :
    (find_best_meeting_time schedules d).best_alternative_slots
      = (sortBy covGe (altStream schedules d)).take 10
    ∧ (find_best_meeting_time schedules d).best_alternative_slots.Pairwise
        (fun a b => b.coverage ≤ a.coverage)
    ∧ (find_best_meeting_time schedules d).best_alternative_slots.length ≤ 10
    ∧ (∀ c : ℚ,
        (sortBy covGe (altStream schedules d)).filter (fun x => x.coverage = c)
          = (altStream schedules d).filter (fun x => x.coverage = c))
    ∧ (find_best_meeting_time schedules d).perfect_slots
        = perfectStream schedules d := by
  have h1 : (find_best_meeting_time schedules d).best_alternative_slots
      = (sortBy covGe (altStream schedules d)).take 10 := by
    cases schedules with
    | nil => rfl
    | cons a l => simp [find_best_meeting_time]
  have h2 : (find_best_meeting_time schedules d).perfect_slots
      = perfectStream schedules d := by
    cases schedules with
    | nil => rfl
    | cons a l => simp [find_best_meeting_time]
  refine ⟨h1, ?_, ?_, fun c => filter_sortBy _ c, h2⟩
  · rw [h1]
    exact (pairwise_sortBy _).sublist (List.take_sublist _ _)
  · rw [h1]
    exact List.length_take_le _ _

/-- C4 fails on the code: with a single-participant index, a date on
which exactly that one participant is available does contribute a
perfect slot. -/
theorem claim_C4_counterexample :
    (membersAvailable [(['A'], [(['D'], [((1 : Int), (2 : Int))])])]
      ['D']).length = 1
    ∧ (find_best_meeting_time [(['A'], [(['D'], [((1 : Int), (2 : Int))])])]
        0).perfect_slots = [⟨['D'], 1, 2, [['A']], []⟩] :=
  ⟨by decide, by decide⟩

/-- C4 amended: a date with exactly one available participant
contributes no alternative candidates, and no perfect candidates either
provided the index has at least two participants (with a one-participant
index it does emit perfect slots); every alternative candidate in the
result has at least two available members. -/
theorem claim_C4 (sched : Schedules) (d : ℚ) (date : Str)
    (h1 : (membersAvailable sched date).length = 1) :
    (processDate sched d date).2 = []
    ∧ (2 ≤ sched.length → processDate sched d date = ([], []))
    ∧ ∀ c ∈ (find_best_meeting_time sched d).best_alternative_slots,
        2 ≤ c.members_available.length := by
  refine ⟨?_, ?_, ?_⟩
  · rw [List.eq_nil_iff_forall_not_mem]
    intro c hc
    have := (alt_mem_processDate hc).1
    omega
  · intro h2
    have hne : ¬ ((1 : Nat) = sched.length) := by omega
    simp [processDate, h1, hne]
  · intro c hc
    obtain ⟨date2, hd2, hcd⟩ := mem_best_alt hc
    obtain ⟨hac, s, hs, rfl⟩ := alt_mem_processDate hcd
    simpa using hac

/-- Witness for C4 on a two-participant index where only one participant
is available on date `D`. -/
theorem claim_C4_witness :
    ((membersAvailable
        [(['A'], [(['D'], [((1 : Int), (2 : Int))])]), (['B'], [(['D'], [])])]
        ['D']).length = 1)
    ∧ ((processDate
          [(['A'], [(['D'], [((1 : Int), (2 : Int))])]), (['B'], [(['D'], [])])]
          0 ['D']).2 = []
      ∧ (2 ≤ ([(['A'], [(['D'], [((1 : Int), (2 : Int))])]),
               (['B'], [(['D'], [])])] : Schedules).length →
          processDate
            [(['A'], [(['D'], [((1 : Int), (2 : Int))])]), (['B'], [(['D'], [])])]
            0 ['D'] = ([], []))
      ∧ ∀ c ∈ (find_best_meeting_time
            [(['A'], [(['D'], [((1 : Int), (2 : Int))])]), (['B'], [(['D'], [])])]
            0).best_alternative_slots,
          2 ≤ c.members_available.length) :=
  ⟨by decide,
   claim_C4 [(['A'], [(['D'], [((1 : Int), (2 : Int))])]), (['B'], [(['D'], [])])]
     0 ['D'] (by decide)⟩

/-- C5 fails on the code: with a single-participant index the perfect
candidate has no counterpart in `best_alternative_slots` (alternatives
require at least two available members). -/
theorem claim_C5_counterexample :
    (find_best_meeting_time [(['B'], [(['E'], [((3 : Int), (5 : Int))])])]
        1).perfect_slots = [⟨['E'], 3, 5, [['B']], []⟩]
    ∧ (find_best_meeting_time [(['B'], [(['E'], [((3 : Int), (5 : Int))])])]
        1).best_alternative_slots = [] :=
  ⟨by decide, by decide⟩

/-- C5 amended: when the index has at least two participants, every
perfect candidate appears — same date, interval and available members,
with coverage exactly 1 — in the sorted pre-truncation alternative list,
and in `best_alternative_slots` itself whenever no truncation happens
(at most 10 alternatives in total). -/
theorem claim_C5 (sched : Schedules) (d : ℚ) (h2 : 2 ≤ sched.length)
    (p : SlotCandidate)
    (hp : p ∈ (find_best_meeting_time sched d).perfect_slots) :
    ∃ a ∈ sortBy covGe (altStream sched d),
      a.date = p.date ∧ a.start_time = p.start_time
      ∧ a.end_time = p.end_time
      ∧ a.members_available = p.members_available ∧ a.coverage = 1
      ∧ ((altStream sched d).length ≤ 10 →
          a ∈ (find_best_meeting_time sched d).best_alternative_slots) := by
  obtain ⟨date, hdate, hpd⟩ := mem_perfect hp
  obtain ⟨heq, hne0, s, hs, rfl⟩ := perfect_mem_processDate hpd
  have hac2 : 2 ≤ (membersAvailable sched date).length := by omega
  have ha := alt_processDate_intro s hs hac2
  have hstream :
      (⟨date, s.1, s.2, (membersAvailable sched date).map Prod.fst,
        unavailList sched date,
        ((membersAvailable sched date).length : ℚ) / (sched.length : ℚ)⟩
        : AltCandidate) ∈ altStream sched d :=
    List.mem_flatten.mpr ⟨_, List.mem_map_of_mem _ hdate, ha⟩
  have hsorted := ((sortBy_perm covGe (altStream sched d)).mem_iff).mpr hstream
  have hcov : ((membersAvailable sched date).length : ℚ)
      / (sched.length : ℚ) = 1 := by
    rw [heq]
    exact div_self (Nat.cast_ne_zero.mpr (by omega))
  refine ⟨_, hsorted, rfl, rfl, rfl, rfl, hcov, ?_⟩
  intro hlen
  have htake : (sortBy covGe (altStream sched d)).take 10
      = sortBy covGe (altStream sched d) :=
    List.take_of_length_le (by rw [length_sortBy]; exact hlen)
  have hb : sched.isEmpty = false := by
    cases sched with
    | nil => simp at h2
    | cons a l => rfl
  have hfind : (find_best_meeting_time sched d).best_alternative_slots
      = (sortBy covGe (altStream sched d)).take 10 := by
    simp [find_best_meeting_time, hb]
  rw [hfind, htake]
  exact hsorted

/-- Witness for C5 on a concrete two-participant index with one perfect
slot. -/
theorem claim_C5_witness :
    (2 ≤ ([(['A'], [(['D'], [((1 : Int), (3 : Int))])]),
           (['B'], [(['D'], [((2 : Int), (4 : Int))])])] : Schedules).length)
    ∧ ((⟨['D'], 2, 3, [['A'], ['B']], []⟩ : SlotCandidate)
        ∈ (find_best_meeting_time
            [(['A'], [(['D'], [((1 : Int), (3 : Int))])]),
             (['B'], [(['D'], [((2 : Int), (4 : Int))])])] 1).perfect_slots)
    ∧ ∃ a ∈ sortBy covGe (altStream
          [(['A'], [(['D'], [((1 : Int), (3 : Int))])]),
           (['B'], [(['D'], [((2 : Int), (4 : Int))])])] 1),
        a.date = (⟨['D'], 2, 3, [['A'], ['B']], []⟩ : SlotCandidate).date
        ∧ a.start_time
            = (⟨['D'], 2, 3, [['A'], ['B']], []⟩ : SlotCandidate).start_time
        ∧ a.end_time
            = (⟨['D'], 2, 3, [['A'], ['B']], []⟩ : SlotCandidate).end_time
        ∧ a.members_available
            = (⟨['D'], 2, 3, [['A'], ['B']], []⟩
                : SlotCandidate).members_available
        ∧ a.coverage = 1
        ∧ ((altStream
              [(['A'], [(['D'], [((1 : Int), (3 : Int))])]),
               (['B'], [(['D'], [((2 : Int), (4 : Int))])])] 1).length ≤ 10 →
            a ∈ (find_best_meeting_time
                [(['A'], [(['D'], [((1 : Int), (3 : Int))])]),
                 (['B'], [(['D'], [((2 : Int), (4 : Int))])])]
                1).best_alternative_slots) :=
  ⟨by decide, by decide,
   claim_C5
     [(['A'], [(['D'], [((1 : Int), (3 : Int))])]),
      (['B'], [(['D'], [((2 : Int), (4 : Int))])])] 1 (by decide)
     ⟨['D'], 2, 3, [['A'], ['B']], []⟩ (by decide)⟩

/-- C9: the core is deterministic — loading and parsing the same table
from any two instance states yields equal schedules and equal search
results for equal durations, and rebuilding the index twice changes
nothing. -/
theorem claim_C9 (t : Table) (d : ℚ) (s1 s2 : SchedulerState) :
    (parseStep (loadData t s1)).2 = (parseStep (loadData t s2)).2
    ∧ findStep (parseStep (loadData t s1)).1 d
        = findStep (parseStep (loadData t s2)).1 d
    ∧ (parseStep (parseStep (loadData t s1)).1).1
        = (parseStep (loadData t s1)).1
    ∧ findStep (parseStep (parseStep (loadData t s1)).1).1 d
        = findStep (parseStep (loadData t s1)).1 d :=
  ⟨rfl, rfl, rfl, rfl⟩

/-- C10: `re.search` extracts the leftmost occurrence of the pattern in
a sub-part, ignoring surrounding free text; a sub-part holding two
undelimited ranges yields only the leftmost interval. -/
theorem claim_C10 :
    (∀ (s : Str) (m : TimeMatch), searchTime s = some m →
      ∃ i, matchHere (List.drop i s) = some m
        ∧ ∀ j < i, matchHere (List.drop j s) = none)
    ∧ parse_time_slot "xx 1-2PM yy".toList = [((13 : Int), (14 : Int))]
    ∧ parse_time_slot "1-2PM 3-4PM".toList = [((13 : Int), (14 : Int))] := by
  refine ⟨?_, by decide, by decide⟩
  intro s
  induction s with
  | nil =>
    intro m h
    exact absurd h (by simp [searchTime])
  | cons c rest ih =>
    intro m h
    simp only [searchTime] at h
    cases hm : matchHere (c :: rest) with
    | some m2 =>
      simp only [hm] at h
      refine ⟨0, ?_, ?_⟩
      · rw [List.drop_zero, hm, h]
      · intro j hj
        omega
    | none =>
      simp only [hm] at h
      obtain ⟨i, hi, hj⟩ := ih m h
      refine ⟨i + 1, ?_, ?_⟩
      · simpa using hi
      · intro j hjlt
        cases j with
        | zero => simpa using hm
        | succ j2 => simpa using hj j2 (by omega)

/-- Witness for C10 on the sub-part `"1-2PM"`. -/
theorem claim_C10_witness :
    searchTime "1-2PM".toList = some ⟨1, none, 2, Period.PM⟩
    ∧ ∃ i, matchHere (List.drop i "1-2PM".toList)
          = some ⟨1, none, 2, Period.PM⟩
        ∧ ∀ j < i, matchHere (List.drop j "1-2PM".toList) = none :=
  ⟨by decide,
   claim_C10.1 "1-2PM".toList ⟨1, none, 2, Period.PM⟩ (by decide)⟩

end Scheduler
